import Mathlib

/-!
Verification development for the gordy recursive-descent parsing engine.

The definitions below are a shallow embedding of the Go sources:
bytes are `Nat` values `0..255`, runes (Unicode code points) are `Nat`,
the `bufio.Reader` wrapping the byte source is modelled by the list of
bytes it will deliver, Go's `(value, error)` returns become `Except` /
pairs, and a Go runtime panic (index out of range, slice out of range)
is the explicit error value `GoErr.panicked`.  The single unbounded loop
in the source (`Buffer.peekRunes`) is embedded with an explicit fuel
argument; fuel exhaustion is the distinguished value `GoErr.fuelOut`,
never identified with any behaviour of the program.

Module map:
* `bufPeek`                      — Go `bufio.Reader.Peek`
* `DecodeRune`, `FullRune`, ...  — Go `unicode/utf8`
* `Buffer`, `Buffer.peek`, `Buffer.peekRunes`, `Reader` offsets — parser package
* `Input` (state = buffer + own offset + ancestor offsets), `Input.MayFail`,
  `Input.Keep`, `Input.Discard`, `Input.Read`, `Input.ReadRunes` — parser/input.go
* `Match`, `Match.Length` — parser/match.go
* `selectLongest`, `Longest`, `First`, `Seq`, `Optional`, `TryAndKeep` — match/matchers.go
* `Bytes`, `OneByte`, `NBytes`, `Bytes.MatchM` — match/bytes.go
* `Runes`, `OneRune`, `NRunes`, `Runes.MatchM` — match/runes.go
-/

abbrev Byte := Nat

abbrev Rune := Nat

/-- Error outcomes of the embedded Go code: `eof` is `io.EOF` surfaced by
`bufio.Reader.Peek` when fewer bytes are available than requested,
`panicked` is a Go runtime panic (index / slice out of range), and
`fuelOut` marks exhaustion of the fuel of the embedded unbounded loop. -/
inductive GoErr where
  | eof
  | panicked
  | fuelOut
deriving DecidableEq, Repr

/-- Go `bufio.Reader.Peek n` on a reader whose remaining stream is `data`:
returns the first `n` bytes without consuming, and `io.EOF` exactly when
fewer than `n` bytes remain (the available prefix is still returned). -/
def bufPeek (data : List Byte) (n : Nat) : List Byte × Option GoErr :=
  (data.take n, if data.length < n then some .eof else none)

/-! ## Go unicode/utf8 model -/

/-- Whether a byte is a legal UTF-8 lead byte (ASCII or a valid
multi-byte starter); bytes `0x80..0xC1` and `0xF5..0xFF` are invalid. -/
def validLead (b : Byte) : Bool := b < 0x80 || (0xC2 ≤ b && b < 0xF5)

/-- Encoded length implied by a valid lead byte (1 for ASCII and for
invalid leads, matching Go's `first` table where invalid entries carry
size 1). -/
def utf8Size (b : Byte) : Nat :=
  if b < 0x80 then 1
  else if b < 0xC2 then 1
  else if b < 0xE0 then 2
  else if b < 0xF0 then 3
  else if b < 0xF5 then 4
  else 1

/-- Lower bound of the accepted range for the second byte of a sequence
led by `b` (Go's `acceptRanges`). -/
def acceptLo (b : Byte) : Byte :=
  if b = 0xE0 then 0xA0 else if b = 0xF0 then 0x90 else 0x80

/-- Upper bound of the accepted range for the second byte of a sequence
led by `b` (Go's `acceptRanges`). -/
def acceptHi (b : Byte) : Byte :=
  if b = 0xED then 0x9F else if b = 0xF4 then 0x8F else 0xBF

/-- The Unicode replacement character U+FFFD, Go's `utf8.RuneError`. -/
def runeError : Rune := 0xFFFD

/-- Go `utf8.DecodeRune`: first decoded rune of `p` together with the
number of bytes it occupies; invalid or truncated encodings decode to
`(RuneError, 1)` (`(RuneError, 0)` on empty input). -/
def DecodeRune : List Byte → Rune × Nat
  | [] => (runeError, 0)
  | b0 :: rest =>
    if b0 < 0x80 then (b0, 1)
    else if !(validLead b0) then (runeError, 1)
    else
      match utf8Size b0, rest with
      | 2, b1 :: _ =>
        if acceptLo b0 ≤ b1 && b1 ≤ acceptHi b0 then
          ((b0 % 0x20) * 0x40 + b1 % 0x40, 2)
        else (runeError, 1)
      | 3, b1 :: b2 :: _ =>
        if acceptLo b0 ≤ b1 && b1 ≤ acceptHi b0 && 0x80 ≤ b2 && b2 ≤ 0xBF then
          ((b0 % 0x10) * 0x1000 + (b1 % 0x40) * 0x40 + b2 % 0x40, 3)
        else (runeError, 1)
      | 4, b1 :: b2 :: b3 :: _ =>
        if acceptLo b0 ≤ b1 && b1 ≤ acceptHi b0 && 0x80 ≤ b2 && b2 ≤ 0xBF
            && 0x80 ≤ b3 && b3 ≤ 0xBF then
          ((b0 % 8) * 0x40000 + (b1 % 0x40) * 0x1000 + (b2 % 0x40) * 0x40 + b3 % 0x40, 4)
        else (runeError, 1)
      | _, _ => (runeError, 1)

/-- Go `utf8.FullRune`: `p` begins with a full (or invalid, hence
"fully decodable") rune encoding. -/
def FullRune : List Byte → Bool
  | [] => false
  | b0 :: rest =>
    let sz := if validLead b0 then utf8Size b0 else 1
    if rest.length + 1 ≥ sz then true
    else
      match rest with
      | [] => false
      | b1 :: rest2 =>
        if b1 < acceptLo b0 || acceptHi b0 < b1 then true
        else
          match rest2 with
          | [] => false
          | b2 :: _ => if b2 < 0x80 || 0xBF < b2 then true else false

/-- Go's `[]byte(string(r))` for one rune: UTF-8 encoding, with invalid
code points (surrogates, out of range) encoded as `RuneError`. -/
def encodeRune (r : Rune) : List Byte :=
  if r < 0x80 then [r]
  else if r < 0x800 then [0xC0 + r / 0x40, 0x80 + r % 0x40]
  else if (0xD800 ≤ r && r ≤ 0xDFFF) || 0x10FFFF < r then [0xEF, 0xBF, 0xBD]
  else if r < 0x10000 then
    [0xE0 + r / 0x1000, 0x80 + r / 0x40 % 0x40, 0x80 + r % 0x40]
  else
    [0xF0 + r / 0x40000, 0x80 + r / 0x1000 % 0x40, 0x80 + r / 0x40 % 0x40, 0x80 + r % 0x40]

/-- Go's `[]byte(string(rs))` for a rune slice. -/
def encodeRunes (rs : List Rune) : List Byte := rs.flatMap encodeRune

/-! ## parser.Buffer -/

/-- `parser.Buffer`: the not-yet-discarded window of the underlying byte
source, i.e. the remaining stream of the wrapped `bufio.Reader`.
(The mutex serialising Buffer calls has no observable effect in the
sequential semantics and is not modelled.) -/
structure Buffer where
  data : List Byte
deriving DecidableEq, Repr

/-- `Buffer.peek` (part_004 lines 54-70): peek `count` bytes at `off`
bytes past the window start.  Faithful to the source, any `Peek` error
(including `io.EOF` with a partial result) is returned with 0 bytes. -/
def Buffer.peek (b : Buffer) (off count : Nat) : Except GoErr (List Byte) :=
  if count = 0 then .ok []
  else
    match bufPeek b.data (off + count) with
    | (_, some e) => .error e
    | (pbs, none) => .ok (pbs.drop off)

/-- `Buffer.discard` / `Buffer.Collect`: permanently drop the first `n`
bytes of the window. -/
def Buffer.discard (b : Buffer) (n : Nat) : Buffer := ⟨b.data.drop n⟩

/-- One iteration state of the inner `for {}` loop of
`Buffer.peekRunes` (part_004 lines 95-141), embedded with fuel.  In the
source every `switch` case ends in `break`, which in Go terminates the
`switch`, NOT the enclosing `for`; the loop therefore re-enters, and its
first case condition `rune(pbs[0]) < utf8.RuneSelf` indexes `pbs[0]`,
which panics once `pbs` is empty.  The only normal exits are the two
`return` statements (the at-EOF partial decode, and the dead `readErr`
guard).  Consequently the outer `for i` loop never advances past `i = 0`
and is represented by this single call at `i = 0`.  `readErr` is reset
to `nil` before the loop and never reassigned in the source, so it is
threaded here unchanged. -/
def prInner (data : List Byte) (off cnt : Nat) :
    Nat → Nat → List Rune → Nat → List Byte → Bool → Option GoErr →
    Except GoErr (List Rune × Nat)
  | 0, _, _, _, _, _, _ => .error .fuelOut
  | fuel + 1, i, arr, total, pbs, atEof, readErr =>
    match pbs with
    | [] => .error .panicked
    | b0 :: rest =>
      if b0 < 0x80 then
        prInner data off cnt fuel i (arr.set i b0) (total + 1) rest atEof readErr
      else if FullRune (b0 :: rest) then
        let rn := DecodeRune (b0 :: rest)
        prInner data off cnt fuel i (arr.set i rn.1) (total + rn.2)
          ((b0 :: rest).drop rn.2) atEof readErr
      else if atEof then
        let rn := DecodeRune (b0 :: rest)
        .ok (arr.set i rn.1, total + rn.2)
      else
        match readErr with
        | some e => .error e
        | none =>
          let (npbs, err) := bufPeek data (off + total + (cnt - i))
          if err.isSome && npbs.length = 0 then .error .eof
          else if off + total ≤ npbs.length then
            prInner data off cnt fuel i arr total
              ((b0 :: rest) ++ npbs.drop (off + total)) err.isSome readErr
          else .error .panicked

/-- `Buffer.peekRunes` (part_004 lines 76-144): decode `cnt` code points
starting `off` bytes into the window, returning the runes written and
the total bytes consumed.  Initial peek and `pbs = pbs[off:]` slicing
are as in the source; the loops are `prInner`. -/
def Buffer.peekRunes (b : Buffer) (off cnt fuel : Nat) :
    Except GoErr (List Rune × Nat) :=
  if cnt = 0 then .ok ([], 0)
  else
    match bufPeek b.data (off + cnt) with
    | (pbs, err) =>
      if err.isSome && pbs.length = 0 then .error .eof
      else if off ≤ pbs.length then
        prInner b.data off cnt fuel 0 (List.replicate cnt 0) 0 (pbs.drop off) err.isSome none
      else .error .panicked

/-! ## parser.Input (Input.r is the Reader offset; the parent chain
stores, nearest first, each ancestor's offset at the time it was
forked) -/

/-- The state seen from one `parser.Input` node: the shared `Buffer`,
this node's own `Reader` offset `cur`, and the ancestor offsets
(nearest parent first; `[]` means this node is the root). -/
structure Input where
  buf : Buffer
  cur : Nat
  parents : List Nat
deriving DecidableEq, Repr

/-- `parser.New`: root Input over a fresh Buffer. -/
def Input.New (data : List Byte) : Input := ⟨⟨data⟩, 0, []⟩

/-- `Input.MayFail` (input.go lines 119-125): fork a child with the same
Buffer and a cloned Reader offset; no I/O. -/
def Input.MayFail (s : Input) : Input := ⟨s.buf, s.cur, s.cur :: s.parents⟩

/-- `Reader.Read` via `Input.Read`: peek at the own offset and advance
it by the bytes delivered (0 on error, as `Buffer.peek` returns 0 with
any error). -/
def Input.Read (s : Input) (count : Nat) : Except GoErr (List Byte) × Input :=
  match s.buf.peek s.cur count with
  | .ok bs => (.ok bs, ⟨s.buf, s.cur + bs.length, s.parents⟩)
  | .error e => (.error e, s)

/-- `Reader.ReadRunes` via `Input.ReadRunes`: `Buffer.peekRunes` at the
own offset, advancing by the total bytes reported. -/
def Input.ReadRunes (s : Input) (cnt fuel : Nat) :
    Except GoErr (List Rune) × Input :=
  match s.buf.peekRunes s.cur cnt fuel with
  | .ok (arr, total) => (.ok arr, ⟨s.buf, s.cur + total, s.parents⟩)
  | .error e => (.error e, s)

/-- `Input.Keep` (input.go lines 133-153): if the receiver is the root
or a direct child of the root, the Buffer discards every byte before the
receiver's offset and the root's Reader is reset to 0; otherwise the
parent's Reader is overwritten with the child's. -/
def Input.Keep (s : Input) : Input :=
  match s.parents with
  | [] => ⟨s.buf.discard s.cur, 0, []⟩
  | [_] => ⟨s.buf.discard s.cur, 0, []⟩
  | _ :: gs => ⟨s.buf, s.cur, gs⟩

/-- `Input.Discard` (input.go lines 157-162): return the parent
unchanged, or the receiver itself when it has no parent. -/
def Input.Discard (s : Input) : Input :=
  match s.parents with
  | [] => s
  | p :: gs => ⟨s.buf, p, gs⟩

/-! ## token package -/

namespace token

def None : Nat := 0

def Literal : Nat := 1

def Last : Nat := 2

end token

/-! ## parser.Match -/

/-- `parser.Match` (match.go): tag, consumed content, named submatches
(`Group`), ordered submatches.  The write-once `Made` slot carries no
parsing semantics and is omitted. -/
inductive Match where
  | mk (tag : Nat) (content : List Byte) (group : List (String × Match))
      (submatch : List Match)

def Match.tag : Match → Nat
  | .mk t _ _ _ => t

def Match.content : Match → List Byte
  | .mk _ c _ _ => c

def Match.group : Match → List (String × Match)
  | .mk _ _ g _ => g

def Match.submatch : Match → List Match
  | .mk _ _ _ s => s

/-- `Match.Length` (match.go lines 15-21): a method on the possibly-nil
pointer `*Match`, hence a function on `Option Match`; `len(m.Content)`
for non-nil `m` and `0` for nil. -/
def Match.Length : Option Match → Nat
  | some m => m.content.length
  | none => 0

/-! ## match package: structural combinators (matchers.go / part_003) -/

/-- A Matcher transforms the caller's Input state and yields a Match
(success), no match (`none`), or a propagated error. -/
abbrev Matcher := Input → Except GoErr (Option Match × Input)

/-- Loop of `selectLongest` (matchers.go lines 11-23): fold maintaining
`(ln, lm)`, replacing the best whenever `lm == nil` or the candidate is
strictly longer; returns the final `(ln, lm)` pair. -/
def selectLongestGo : List (Option Match) → Nat → Nat → Option Match →
    Nat × Option Match
  | [], _, ln, lm => (ln, lm)
  | m :: ms, n, ln, lm =>
    if lm.isNone || Match.Length lm < Match.Length m then
      selectLongestGo ms (n + 1) n m
    else
      selectLongestGo ms (n + 1) ln lm

/-- `selectLongest` (matchers.go lines 11-23): index of the longest
match; Go returns `int` (initialised to 0, so never `-1`). -/
def selectLongest (ms : List (Option Match)) : Int :=
  ((selectLongestGo ms 0 0 none).1 : Nat)

/-- The loop of `Longest` (matchers.go lines 33-42): run every
alternative on its own fork of the current Input, collecting each
alternative's Match and its fork's end state. -/
def runAlts : List Matcher → Input → Except GoErr (List (Option Match × Input))
  | [], _ => .ok []
  | m :: ms, p =>
    match m p.MayFail with
    | .error e => .error e
    | .ok (om, s') =>
      match runAlts ms s'.Discard with
      | .error e => .error e
      | .ok rest => .ok ((om, s') :: rest)

/-- `Longest` (matchers.go lines 28-52): try all alternatives on forks,
`Keep` the fork chosen by `selectLongest` (the `w != -1` guard is
faithful; indexing `msm[w]` out of range panics, which Go reaches when
the alternative list is empty). -/
def Longest (ms : List Matcher) : Matcher := fun p =>
  match runAlts ms p with
  | .error e => .error e
  | .ok results =>
    let w := selectLongest (results.map (·.1))
    if w ≠ -1 then
      match results[w.toNat]? with
      | some (m, sw) => .ok (m, sw.Keep)
      | none => .error .panicked
    else .ok (none, p)

/-- `First` (matchers.go lines 181-198): try each alternative on its own
fork; return the first success (note: the source never calls `Keep` on
the winning fork, so the caller's Input is the unchanged parent); no
match if all fail. -/
def First : List Matcher → Matcher
  | [] => fun p => .ok (none, p)
  | m :: ms => fun p =>
    match m p.MayFail with
    | .error e => .error e
    | .ok (some mm, s') => .ok (some mm, s'.Discard)
    | .ok (none, s') => First ms s'.Discard

/-- Loop of `Seq` (matchers.go lines 207-222): apply each matcher to the
same Input in order; abort with no match (input left as consumed) on the
first failure; on success build the composite Match — whose `Content`
the source leaves nil. -/
def seqGo (t : Nat) : List Matcher → Input → List Match →
    Except GoErr (Option Match × Input)
  | [], p, acc => .ok (some (.mk t [] [] acc.reverse), p)
  | m :: ms, p, acc =>
    match m p with
    | .error e => .error e
    | .ok (none, p') => .ok (none, p')
    | .ok (some mm, p') => seqGo t ms p' (mm :: acc)

/-- `Seq` (matchers.go lines 203-223); named `SeqM` because `Seq` is taken
by the core library. -/
def SeqM (t : Nat) (ms : List Matcher) : Matcher := fun p => seqGo t ms p []

/-- `TryAndKeep` (matchers.go lines 277-293): fork, run the inner
matcher; `Keep` the fork on success, drop it (caller keeps the parent)
on no-match. -/
def TryAndKeep (m : Matcher) : Matcher := fun p =>
  match m p.MayFail with
  | .error e => .error e
  | .ok (none, s') => .ok (none, s'.Discard)
  | .ok (some mm, s') => .ok (some mm, s'.Keep)

/-- `Optional` (matchers.go lines 257-272): `TryAndKeep` the inner
matcher; on no-match return a fresh `&Match{Tag: token.None}` (empty
content) instead of failing. -/
def Optional (m : Matcher) : Matcher := fun p =>
  match TryAndKeep m p with
  | .error e => .error e
  | .ok (some mm, p') => .ok (some mm, p')
  | .ok (none, p') => .ok (some (.mk token.None [] [] []), p')

/-! ## match package: byte predicate matchers (bytes.go) -/

/-- `match.BytesInSet`. -/
def BytesInSet (cs : List Byte) : Byte → Bool := fun b => cs.contains b

/-- `match.BytesInRange` (inclusive). -/
def BytesInRange (cs ce : Byte) : Byte → Bool := fun b => cs ≤ b && b ≤ ce

/-- `match.AnyBytes`: disjunction of predicates (empty list matches
nothing). -/
def AnyBytes : List (Byte → Bool) → (Byte → Bool)
  | [] => fun _ => false
  | [pr] => pr
  | preds => fun b => preds.any (· b)

/-- `match.Bytes` (bytes.go lines 85-89). -/
structure Bytes where
  t : Nat
  fromN : Nat
  toN : Nat
  pred : Byte → Bool

/-- `match.OneByte`: `from` and `to` are left at their zero values. -/
def OneByte (t : Nat) (preds : List (Byte → Bool)) : Bytes :=
  ⟨t, 0, 0, AnyBytes preds⟩

/-- `match.NBytes`. -/
def NBytes (t fromN toN : Nat) (preds : List (Byte → Bool)) : Bytes :=
  ⟨t, fromN, toN, AnyBytes preds⟩

/-- `Bytes.matchOne` (bytes.go lines 163-175): read one byte
unconditionally (consuming it), then test the predicate. -/
def Bytes.matchOne (b : Bytes) (p : Input) : Except GoErr (Byte × Bool × Input) :=
  match p.Read 1 with
  | (.error e, _) => .error e
  | (.ok bs, p') =>
    let c := bs.headD 0
    if b.pred c then .ok (c, true, p') else .ok (0, false, p')

/-- Lower-bound loop of `Bytes.Match` (bytes.go lines 126-139):
`for i := 0; i <= b.from; i++` — one iteration more than the slice
`bs := make([]byte, b.from, ...)` has room for, so a matching byte at
`i = b.from` panics on `bs[i] = c`; a non-matching byte returns
no-match (with everything read so far consumed). -/
def Bytes.lowerLoop (b : Bytes) : Nat → Nat → List Byte → Input →
    Except GoErr (Option (List Byte) × Input)
  | 0, _, bs, p => .ok (some bs, p)
  | k + 1, i, bs, p =>
    match b.matchOne p with
    | .error e => .error e
    | .ok (c, ok, p') =>
      if ok then
        if i < bs.length then Bytes.lowerLoop b k (i + 1) (bs.set i c) p'
        else .error .panicked
      else .ok (none, p')

/-- Upper-bound loop of `Bytes.Match` (bytes.go lines 141-154):
`for i := b.from + 1; i <= b.to; i++`, appending greedily and breaking
on the first non-matching (already consumed) byte. -/
def Bytes.upperLoop (b : Bytes) : Nat → List Byte → Input →
    Except GoErr (List Byte × Input)
  | 0, bs, p => .ok (bs, p)
  | k + 1, bs, p =>
    match b.matchOne p with
    | .error e => .error e
    | .ok (c, ok, p') =>
      if ok then Bytes.upperLoop b k (bs ++ [c]) p'
      else .ok (bs, p')

/-- `Bytes.Match` (bytes.go lines 124-159): the lower loop runs
`b.from + 1` times, the upper loop `b.to - b.from` times
(`max (to - (from+1) + 1) 0` iterations of `i := from+1; i <= to`). -/
def Bytes.MatchM (b : Bytes) : Matcher := fun p =>
  match Bytes.lowerLoop b (b.fromN + 1) 0 (List.replicate b.fromN 0) p with
  | .error e => .error e
  | .ok (none, p') => .ok (none, p')
  | .ok (some bs, p') =>
    match Bytes.upperLoop b (b.toN - b.fromN) bs p' with
    | .error e => .error e
    | .ok (bs2, p'') => .ok (some (.mk b.t bs2 [] []), p'')

/-! ## match package: rune predicate matchers (runes.go) -/

/-- `match.RunesInSet`. -/
def RunesInSet (cs : List Rune) : Rune → Bool := fun r => cs.contains r

/-- `match.RunesInRange` (inclusive). -/
def RunesInRange (cs ce : Rune) : Rune → Bool := fun r => cs ≤ r && r ≤ ce

/-- `match.AnyRunes`. -/
def AnyRunes : List (Rune → Bool) → (Rune → Bool)
  | [] => fun _ => false
  | [pr] => pr
  | preds => fun r => preds.any (· r)

/-- `match.Runes` (runes.go lines 85-89). -/
structure Runes where
  t : Nat
  fromN : Nat
  toN : Nat
  pred : Rune → Bool

/-- `match.OneRune`: unlike `OneByte`, sets `from = to = 1`. -/
def OneRune (t : Nat) (preds : List (Rune → Bool)) : Runes :=
  ⟨t, 1, 1, AnyRunes preds⟩

/-- `match.NRunes`. -/
def NRunes (t fromN toN : Nat) (preds : List (Rune → Bool)) : Runes :=
  ⟨t, fromN, toN, AnyRunes preds⟩

/-- `Runes.matchOne` (runes.go lines 165-177): read one rune
(consuming it), then test the predicate. -/
def Runes.matchOne (r : Runes) (fuel : Nat) (p : Input) :
    Except GoErr (Rune × Bool × Input) :=
  match p.ReadRunes 1 fuel with
  | (.error e, _) => .error e
  | (.ok rs, p') =>
    let c := rs.headD 0
    if r.pred c then .ok (c, true, p') else .ok (0, false, p')

/-- Lower-bound loop of `Runes.Match` (runes.go lines 128-141):
`for i := 0; i < r.from; i++` — exactly `r.from` iterations, writes in
range. -/
def Runes.lowerLoop (r : Runes) (fuel : Nat) : Nat → Nat → List Rune → Input →
    Except GoErr (Option (List Rune) × Input)
  | 0, _, rs, p => .ok (some rs, p)
  | k + 1, i, rs, p =>
    match r.matchOne fuel p with
    | .error e => .error e
    | .ok (c, ok, p') =>
      if ok then Runes.lowerLoop r fuel k (i + 1) (rs.set i c) p'
      else .ok (none, p')

/-- Upper-bound loop of `Runes.Match` (runes.go lines 143-156):
`for i := r.from; i < r.to; i++`. -/
def Runes.upperLoop (r : Runes) (fuel : Nat) : Nat → List Rune → Input →
    Except GoErr (List Rune × Input)
  | 0, rs, p => .ok (rs, p)
  | k + 1, rs, p =>
    match r.matchOne fuel p with
    | .error e => .error e
    | .ok (c, ok, p') =>
      if ok then Runes.upperLoop r fuel k (rs ++ [c]) p'
      else .ok (rs, p')

/-- `Runes.Match` (runes.go lines 126-161): lower loop `r.from` times,
upper loop `r.to - r.from` times, content is the UTF-8 encoding
`[]byte(string(rs))` of the collected runes. -/
def Runes.MatchM (r : Runes) (fuel : Nat) : Matcher := fun p =>
  match Runes.lowerLoop r fuel r.fromN 0 (List.replicate r.fromN 0) p with
  | .error e => .error e
  | .ok (none, p') => .ok (none, p')
  | .ok (some rs, p') =>
    match Runes.upperLoop r fuel (r.toN - r.fromN) rs p' with
    | .error e => .error e
    | .ok (rs2, p'') => .ok (some (.mk r.t (encodeRunes rs2) [] []), p'')

/-! ## Concrete fixtures -/

/-- The digit predicate of the example grammar, `BytesInRange('0','9')`. -/
def digitPred : Byte → Bool := BytesInRange 48 57

/-- The hyphen predicate, `BytesInSet('-')`. -/
def hyphenPred : Byte → Bool := BytesInSet [45]

/-- Code-point analogue of `digitPred`. -/
def digitPredR : Rune → Bool := RunesInRange 48 57

def TAreaCode : Nat := 100

def TLocalCode : Nat := 101

def TPersonalCode : Nat := 102

def TPhoneNumber : Nat := 103

/-- The bytes of `"555-555-5555"`. -/
def phoneInput : List Byte := [53, 53, 53, 45, 53, 53, 53, 45, 53, 53, 53, 53]

def MatchAreaCode : Matcher := Bytes.MatchM (NBytes TAreaCode 3 3 [digitPred])

def MatchLocalCode : Matcher := Bytes.MatchM (NBytes TLocalCode 3 3 [digitPred])

def MatchPersonalCode : Matcher := Bytes.MatchM (NBytes TPersonalCode 4 4 [digitPred])

def MatchHyphen : Matcher := Bytes.MatchM (OneByte token.Literal [hyphenPred])

/-- The example phone grammar of the repository's own Example test:
`Seq(PHONE, NBytes(3,3,digit), Optional(OneByte(hyphen)), NBytes(3,3,digit),
Optional(OneByte(hyphen)), NBytes(4,4,digit))`. -/
def MatchPhoneNumber : Matcher :=
  SeqM TPhoneNumber
    [MatchAreaCode, Optional MatchHyphen, MatchLocalCode,
      Optional MatchHyphen, MatchPersonalCode]

/-- A contract-obeying leaf matcher reading exactly one byte and always
succeeding on it; used to exercise the structural combinators (the
repository's own leaf matchers cannot succeed, see the C1 theorem). -/
def takeOne : Matcher := fun p =>
  match p.Read 1 with
  | (.ok bs, p') => .ok (some (.mk token.Literal bs [] []), p')
  | (.error e, _) => .error e

/-- The bytes still readable ahead of an Input node's Reader. -/
def view (s : Input) : List Byte := s.buf.data.drop s.cur

/-- The fork of `s` (as by `Input.MayFail`) after its Reader has
advanced by `k` bytes. -/
def forkAdv (s : Input) (k : Nat) : Input := ⟨s.buf, s.cur + k, s.cur :: s.parents⟩

/-- An abstract matcher obeying the Matcher contract of the design:
outcome and consumption depend only on the bytes ahead of the Reader,
only the own Reader advances (also on failure, as the repository's leaf
matchers do), no error is raised, no ancestor is touched. -/
def mkSimple (f : List Byte → Option Match × Nat) : Matcher := fun p =>
  .ok ((f (view p)).1, ⟨p.buf, p.cur + (f (view p)).2, p.parents⟩)

/-- Structure eta for `Input`. -/
theorem Input.eta (s : Input) : (⟨s.buf, s.cur, s.parents⟩ : Input) = s := rfl

/-! ## Claim C1 -/

/-- Claim C1: the claimed contract for `NBytes` fails on the code.  The
lower-bound loop of `Bytes.Match` runs `from + 1` times, so
`NBytes(3,3,digit)` on `"555-555-5555"`, whose first three bytes all
satisfy the predicate, consumes a fourth byte (`'-'`), fails the
predicate on it and returns no-match instead of a Match with content
`"555"`; and `NRunes(3,3,digit)` on the same input panics inside
`Buffer.peekRunes` before finishing its first rune read. -/
theorem nbytes_lower_bound_off_by_one :
    Bytes.MatchM (NBytes TAreaCode 3 3 [digitPred]) (Input.New phoneInput)
        = .ok (none, ⟨⟨phoneInput⟩, 4, []⟩)
    ∧ Runes.MatchM (NRunes TAreaCode 3 3 [digitPredR]) 16 (Input.New phoneInput)
        = .error .panicked
    ∧ Bytes.MatchM (NBytes TAreaCode 3 3 [digitPred]) (Input.New [53, 53, 53, 53])
        = .error .panicked :=
  ⟨rfl, rfl, rfl⟩

/-! ## Claim C2 -/

/-- Claim C2: the end-to-end phone scenario fails on the code.  The
grammar applied to `"555-555-5555"` returns no-match (its first
component `NBytes(3,3,digit)` consumes 4 bytes and fails, see C1), not
a PHONE match with content `"555-555-5555"`; and even where `Seq` does
succeed, the composite Match's `Content` is left nil rather than the
concatenation of the consumed bytes (second conjunct: two one-byte
successes, content still empty). -/
theorem phone_grammar_no_match :
    MatchPhoneNumber (Input.New phoneInput) = .ok (none, ⟨⟨phoneInput⟩, 4, []⟩)
    ∧ SeqM 50 [takeOne, takeOne] (Input.New [97, 98])
        = .ok (some (.mk 50 [] []
            [.mk token.Literal [97] [] [], .mk token.Literal [98] [] []]),
          ⟨⟨[97, 98]⟩, 2, []⟩) :=
  ⟨rfl, rfl⟩

/-! ## Claim C3 -/

/-- Claim C3: `First` tries alternatives on forks and returns the first
success, but the source never calls `Keep` on the winning fork, so the
caller's cursor is NOT advanced: on input `"ab"` with a single
alternative that succeeds consuming one byte, `First` returns the match
yet the resulting Input is the unchanged original (offset still 0),
contradicting the claimed commit of the winning branch. -/
theorem first_does_not_commit :
    First [takeOne] (Input.New [97, 98])
      = .ok (some (.mk token.Literal [97] [] []), Input.New [97, 98]) :=
  rfl

/-! ## Claim C4 -/

/-- Claim C4: reading decoded code points is broken in the source.  The
`break` statements inside the decoding `switch` of `Buffer.peekRunes`
terminate only the `switch`, not the enclosing `for`, so after decoding
a rune the loop re-enters and indexes `pbs[0]` on an empty slice: a
request for one code point from the two-byte ASCII stream `"ab"` panics
instead of returning `'a'`.  The only normal exit is the at-EOF partial
decode, which mis-counts: on the single lead byte `0xC3` it reports 2
bytes consumed out of a 1-byte stream. -/
theorem peekRunes_panics_after_decode :
    Buffer.peekRunes ⟨[97, 98]⟩ 0 1 16 = .error .panicked
    ∧ Buffer.peekRunes ⟨[0xC3]⟩ 0 1 16 = .ok ([runeError], 2) :=
  ⟨rfl, rfl⟩

/-! ## Claim C9 -/

/-- Claim C9: `Match.Length` is total over every `*Match` including the
nil pointer: `len(m.Content)` on non-nil, 0 on nil, so the
longest-match selection may apply it to failed (nil) matches, as in the
third conjunct. -/
theorem match_length_total_nil :
    Match.Length none = 0
    ∧ (∀ m : Match, Match.Length (some m) = m.content.length)
    ∧ selectLongest [none, some (.mk token.Literal [97] [] [])] = 1 :=
  ⟨rfl, fun _ => rfl, rfl⟩

/-! ## Claim C10 -/

/-- Claim C10: `Discard` on the root Input (no parent) returns that
same root unchanged; on any non-root Input it returns the parent with
the parent's Reader state untouched. -/
theorem discard_root_and_nonroot :
    (∀ (b : Buffer) (c : Nat), Input.Discard ⟨b, c, []⟩ = ⟨b, c, []⟩)
    ∧ (∀ (b : Buffer) (c pn : Nat) (ps : List Nat),
        Input.Discard ⟨b, c, pn :: ps⟩ = ⟨b, pn, ps⟩) :=
  ⟨fun _ _ => rfl, fun _ _ _ _ => rfl⟩

/-! ## Claim C7 -/

/-- Run a sequence of `Read` calls of the given sizes, collecting each
call's result and threading the Input state. -/
def runReads : Input → List Nat → List (Except GoErr (List Byte)) × Input
  | s, [] => ([], s)
  | s, k :: rest =>
    match s.Read k with
    | (r, s') =>
      match runReads s' rest with
      | (rs, s'') => (r :: rs, s'')

/-- Reads depend only on the Buffer and the own offset: they never touch
the Buffer or the ancestor chain, and their outputs and final offset are
independent of the ancestor chain. -/
theorem runReads_shape (counts : List Nat) :
    ∀ (b : Buffer) (c : Nat) (ps ps' : List Nat),
      (runReads ⟨b, c, ps⟩ counts).1 = (runReads ⟨b, c, ps'⟩ counts).1
      ∧ (runReads ⟨b, c, ps⟩ counts).2.buf = b
      ∧ (runReads ⟨b, c, ps⟩ counts).2.parents = ps
      ∧ (runReads ⟨b, c, ps⟩ counts).2.cur = (runReads ⟨b, c, ps'⟩ counts).2.cur := by
  induction counts with
  | nil => intro b c ps ps'; simp [runReads]
  | cons k rest ih =>
    intro b c ps ps'
    simp only [runReads, Input.Read]
    cases hpk : Buffer.peek b c k with
    | ok bs =>
      have h := ih b (c + bs.length) ps ps'
      simp only [h.1, h.2.1, h.2.2.1, h.2.2.2, List.cons.injEq, true_and, and_self]
    | error e =>
      have h := ih b c ps ps'
      simp only [h.1, h.2.1, h.2.2.1, h.2.2.2, List.cons.injEq, true_and, and_self]

/-- Claim C7: reading any sequence of byte counts on a fork and then
calling `Discard` returns the parent with offset and Buffer window
unchanged (it IS the original Input), and the parent then reads exactly
the same bytes the fork read, byte for byte. -/
theorem fork_discard_roundtrip (s : Input) (counts : List Nat) :
    (runReads s.MayFail counts).2.Discard = s
    ∧ (runReads s counts).1 = (runReads s.MayFail counts).1 := by
  obtain ⟨b, c, ps⟩ := s
  have h := runReads_shape counts b c (c :: ps) ps
  constructor
  · show ((runReads ⟨b, c, c :: ps⟩ counts).2).Discard = _
    rcases ht : (runReads ⟨b, c, c :: ps⟩ counts).2 with ⟨tb, tc, tp⟩
    have hbuf := h.2.1
    have hpar := h.2.2.1
    rw [ht] at hbuf hpar
    simp only at hbuf hpar
    subst hbuf; subst hpar
    rfl
  · exact (runReads_shape counts b c ps (c :: ps)).1

/-! ## Claim C6 -/

/-- Claim C6: `Optional(m)` never itself returns no-match.  When the
inner matcher fails (even one that consumed input while failing, as the
repository's leaf matchers do), `Optional` returns a Match tagged
`token.None` with empty content and the caller's Input is exactly the
original (the fork is dropped); when the inner matcher succeeds,
`Optional` returns its Match with the fork's advance kept into the
caller. -/
theorem optional_never_fails (f : List Byte → Option Match × Nat) (s : Input) :
    ((f (view s)).1 = none →
      Optional (mkSimple f) s = .ok (some (.mk token.None [] [] []), s))
    ∧ (∀ mm, (f (view s)).1 = some mm →
      Optional (mkSimple f) s
        = .ok (some mm, (forkAdv s (f (view s)).2).Keep)) := by
  constructor
  · intro h
    simp [Optional, TryAndKeep, mkSimple, Input.MayFail, view, Input.Discard,
      Input.eta, h] at *
  · intro mm h
    simp [Optional, TryAndKeep, mkSimple, Input.MayFail, view, forkAdv, h] at *

/-- A failing abstract matcher that consumes one byte while failing. -/
def gNone : List Byte → Option Match × Nat := fun _ => (none, 1)

/-- A succeeding abstract matcher consuming one byte. -/
def gOne : List Byte → Option Match × Nat :=
  fun v => (some (.mk token.Literal (v.take 1) [] []), 1)

/-- Witness for C6 at concrete inputs: the failing case on `"a"` and
the succeeding case on `"ab"`. -/
theorem optional_never_fails_witness :
    Optional (mkSimple gNone) (Input.New [97])
        = .ok (some (.mk token.None [] [] []), Input.New [97])
    ∧ Optional (mkSimple gOne) (Input.New [97, 98])
        = .ok (some (.mk token.Literal [97] [] []),
            (forkAdv (Input.New [97, 98])
              (gOne (view (Input.New [97, 98]))).2).Keep) :=
  ⟨(optional_never_fails gNone (Input.New [97])).1 rfl,
    (optional_never_fails gOne (Input.New [97, 98])).2
      (.mk token.Literal [97] [] []) rfl⟩

/-! ## selectLongest / Longest lemmas -/

/-- When every candidate is nil, the `lm == nil` arm of the selection
loop fires at every element, so the returned index slides to the last
position. -/
theorem selectLongestGo_allNone (ms : List (Option Match)) :
    ∀ n ln : Nat, (∀ m ∈ ms, m = none) → ms ≠ [] →
      selectLongestGo ms n ln none = (n + ms.length - 1, none) := by
  induction ms with
  | nil => intro n ln _ h; exact absurd rfl h
  | cons m rest ih =>
    intro n ln hall _
    have hm : m = none := hall m (by simp)
    subst hm
    simp only [selectLongestGo, Option.isNone_none, Bool.true_or, if_true]
    rcases rest with _ | ⟨r, rs⟩
    · simp [selectLongestGo]
    · rw [ih (n + 1) n (fun x hx => hall x (List.mem_cons_of_mem _ hx)) (by simp)]
      simp only [List.length_cons, Prod.mk.injEq, and_true]
      omega

/-- Selection loop, started phase (`lm = some l`): the result is either
the incoming best pair unchanged (nothing in `ms` strictly longer) or
the first strictly-increasing chain winner inside `ms`; in the latter
case every element before the winner is strictly shorter than it. -/
theorem selectLongestGo_some_spec (ms : List (Option Match)) :
    ∀ (n ln : Nat) (l : Match),
      ∃ l', (selectLongestGo ms n ln (some l)).2 = some l'
        ∧ l.content.length ≤ l'.content.length
        ∧ (∀ m ∈ ms, Match.Length m ≤ l'.content.length)
        ∧ (((selectLongestGo ms n ln (some l)).1 = ln ∧ l' = l)
          ∨ (∃ j, j < ms.length ∧ (selectLongestGo ms n ln (some l)).1 = n + j
              ∧ ms.getD j none = some l'
              ∧ l.content.length < l'.content.length
              ∧ (∀ i < j, Match.Length (ms.getD i none) < l'.content.length))) := by
  induction ms with
  | nil =>
    intro n ln l
    exact ⟨l, rfl, le_refl _, by simp, Or.inl ⟨rfl, rfl⟩⟩
  | cons m rest ih =>
    intro n ln l
    by_cases hgt : Match.Length (some l) < Match.Length m
    · rcases m with _ | m'
      · simp [Match.Length] at hgt
      · have hstep : selectLongestGo (some m' :: rest) n ln (some l)
            = selectLongestGo rest (n + 1) n (some m') := by
          simp [selectLongestGo, hgt]
        have hlen : l.content.length < m'.content.length := by
          simpa [Match.Length] using hgt
        obtain ⟨l'', h2, hle, hmem, hdisj⟩ := ih (n + 1) n m'
        refine ⟨l'', by rw [hstep]; exact h2, by omega, ?_, ?_⟩
        · intro x hx
          rcases List.mem_cons.mp hx with rfl | hx
          · simpa [Match.Length] using hle
          · exact hmem x hx
        · right
          rcases hdisj with ⟨h1, rfl⟩ | ⟨j, hj, hidx, hget, hstrict, hearlier⟩
          · refine ⟨0, by simp, ?_, by simp, by omega, ?_⟩
            · rw [hstep, h1]; omega
            · intro i hi; omega
          · refine ⟨j + 1, by simpa using Nat.succ_lt_succ hj, ?_, by simpa using hget,
              by omega, ?_⟩
            · rw [hstep, hidx]; omega
            · intro i hi
              cases i with
              | zero => simpa [Match.Length] using hstrict
              | succ i' =>
                have := hearlier i' (by omega)
                simpa using this
    · have hstep : selectLongestGo (m :: rest) n ln (some l)
          = selectLongestGo rest (n + 1) ln (some l) := by
        simp [selectLongestGo, hgt]
      have hlen : Match.Length m ≤ l.content.length := by
        simpa [Match.Length] using Nat.le_of_not_lt hgt
      obtain ⟨l'', h2, hle, hmem, hdisj⟩ := ih (n + 1) ln l
      refine ⟨l'', by rw [hstep]; exact h2, hle, ?_, ?_⟩
      · intro x hx
        rcases List.mem_cons.mp hx with rfl | hx
        · omega
        · exact hmem x hx
      · rcases hdisj with ⟨h1, h2'⟩ | ⟨j, hj, hidx, hget, hstrict, hearlier⟩
        · exact Or.inl ⟨by rw [hstep, h1], h2'⟩
        · right
          refine ⟨j + 1, by simpa using Nat.succ_lt_succ hj, ?_, by simpa using hget,
            hstrict, ?_⟩
          · rw [hstep, hidx]; omega
          · intro i hi
            cases i with
            | zero =>
              have : Match.Length m ≤ l.content.length := hlen
              simpa [Match.Length] using lt_of_le_of_lt this hstrict
            | succ i' =>
              have := hearlier i' (by omega)
              simpa using this

/-- Selection loop from the initial `lm = nil` state, when at least one
candidate is non-nil: the result indexes a non-nil candidate of maximal
length, and every earlier candidate is either nil or strictly shorter. -/
theorem selectLongestGo_none_spec (ms : List (Option Match)) :
    ∀ n ln : Nat, (∃ m ∈ ms, m.isSome) →
      ∃ j mj, j < ms.length
        ∧ (selectLongestGo ms n ln none).1 = n + j
        ∧ ms.getD j none = some mj
        ∧ (∀ m ∈ ms, Match.Length m ≤ mj.content.length)
        ∧ (∀ i < j, Match.Length (ms.getD i none) < mj.content.length
            ∨ ms.getD i none = none) := by
  induction ms with
  | nil => intro n ln h; simp at h
  | cons m rest ih =>
    intro n ln hex
    rcases m with _ | m₀
    · have hstep : selectLongestGo (none :: rest) n ln none
          = selectLongestGo rest (n + 1) n none := by
        simp [selectLongestGo]
      have hex' : ∃ m ∈ rest, m.isSome := by
        rcases hex with ⟨x, hx, hs⟩
        rcases List.mem_cons.mp hx with rfl | hx
        · simp at hs
        · exact ⟨x, hx, hs⟩
      obtain ⟨j, mj, hj, hidx, hget, hmem, hearlier⟩ := ih (n + 1) n hex'
      refine ⟨j + 1, mj, by simpa using Nat.succ_lt_succ hj, ?_,
        by simpa using hget, ?_, ?_⟩
      · rw [hstep, hidx]; omega
      · intro x hx
        rcases List.mem_cons.mp hx with rfl | hx
        · simp [Match.Length]
        · exact hmem x hx
      · intro i hi
        cases i with
        | zero => right; simp
        | succ i' =>
          have := hearlier i' (by omega)
          simpa using this
    · have hstep : selectLongestGo (some m₀ :: rest) n ln none
          = selectLongestGo rest (n + 1) n (some m₀) := by
        simp [selectLongestGo]
      obtain ⟨l', h2, hle, hmem, hdisj⟩ := selectLongestGo_some_spec rest (n + 1) n m₀
      rcases hdisj with ⟨h1, rfl⟩ | ⟨j, hj, hidx, hget, hstrict, hearlier⟩
      · refine ⟨0, l', by simp, by rw [hstep, h1]; omega, by simp, ?_, ?_⟩
        · intro x hx
          rcases List.mem_cons.mp hx with rfl | hx
          · simp [Match.Length]
          · exact hmem x hx
        · intro i hi; omega
      · refine ⟨j + 1, l', by simpa using Nat.succ_lt_succ hj,
          by rw [hstep, hidx]; omega, by simpa using hget, ?_, ?_⟩
        · intro x hx
          rcases List.mem_cons.mp hx with rfl | hx
          · simpa [Match.Length] using hle
          · exact hmem x hx
        · intro i hi
          cases i with
          | zero => left; simpa [Match.Length] using hstrict
          | succ i' =>
            left
            have := hearlier i' (by omega)
            simpa using this

/-- Running `Longest`'s alternative loop over contract-obeying
matchers: every alternative sees the same view (each is forked from the
caller and its fork dropped afterwards), producing its outcome paired
with its fork's end state. -/
theorem runAlts_mkSimple (fs : List (List Byte → Option Match × Nat)) (s : Input) :
    runAlts (fs.map mkSimple) s
      = .ok (fs.map fun f => ((f (view s)).1, forkAdv s (f (view s)).2)) := by
  induction fs generalizing s with
  | nil => rfl
  | cons f rest ih =>
    simp only [List.map_cons, runAlts, mkSimple, Input.MayFail, view, forkAdv,
      Input.Discard, ih]

/-- `Longest` over contract-obeying matchers, reduced to the selection
of `selectLongest` over the alternatives' outcomes. -/
theorem Longest_mkSimple (fs : List (List Byte → Option Match × Nat)) (s : Input) :
    Longest (fs.map mkSimple) s
      = (if selectLongest (fs.map fun f => (f (view s)).1) ≠ -1 then
          match (fs.map fun f =>
              ((f (view s)).1, forkAdv s (f (view s)).2))[(selectLongest
                (fs.map fun f => (f (view s)).1)).toNat]? with
          | some (m, sw) => .ok (m, sw.Keep)
          | none => .error .panicked
        else .ok (none, s)) := by
  simp only [Longest]
  rw [runAlts_mkSimple]
  simp only [List.map_map, Function.comp_def]

/-- Conclusion of claim C5: `Longest` returns the success of maximal
content length, commits exactly the winning alternative's fork into the
caller, and on ties the first alternative with the maximal length wins
(every earlier alternative is either a failure or strictly shorter). -/
def LongestSpec (fs : List (List Byte → Option Match × Nat)) (s : Input) : Prop :=
  ∃ (j : Nat) (fj : List Byte → Option Match × Nat) (mj : Match),
    fs[j]? = some fj
    ∧ (fj (view s)).1 = some mj
    ∧ selectLongest (fs.map fun f => (f (view s)).1) = (j : Int)
    ∧ Longest (fs.map mkSimple) s = .ok (some mj, (forkAdv s (fj (view s)).2).Keep)
    ∧ (∀ f ∈ fs, Match.Length (f (view s)).1 ≤ mj.content.length)
    ∧ (∀ i < j, ∀ fi, fs[i]? = some fi →
        Match.Length (fi (view s)).1 < mj.content.length ∨ (fi (view s)).1 = none)

/-- Claim C5: over any list of contract-obeying alternatives of which
at least one succeeds, `Longest` commits only the winning branch's fork
and returns the maximal-length Match, first such alternative on a tie. -/
theorem longest_max_first (fs : List (List Byte → Option Match × Nat)) (s : Input)
    (h : ∃ f ∈ fs, ((f (view s)).1).isSome) : LongestSpec fs s := by
  have hex : ∃ m ∈ fs.map (fun f => (f (view s)).1), m.isSome := by
    rcases h with ⟨f, hf, hs⟩
    exact ⟨(f (view s)).1, List.mem_map_of_mem _ hf, hs⟩
  obtain ⟨j, mj, hj, hidx, hget, hmem, hearlier⟩ :=
    selectLongestGo_none_spec (fs.map fun f => (f (view s)).1) 0 0 hex
  have hjlen : j < fs.length := by simpa using hj
  obtain ⟨fj, hfj⟩ : ∃ fj, fs[j]? = some fj :=
    ⟨_, List.getElem?_eq_getElem hjlen⟩
  have hgetD : ∀ i, (fs.map fun f => (f (view s)).1).getD i none
      = ((fs[i]?).map fun f => (f (view s)).1).getD none := by
    intro i
    rw [List.getD_eq_getElem?_getD, List.getElem?_map]
  have hmj : (fj (view s)).1 = some mj := by
    have hh := hget
    rw [hgetD j, hfj] at hh
    simpa using hh
  have hsel : selectLongest (fs.map fun f => (f (view s)).1) = (j : Int) := by
    rw [selectLongest, hidx]
    simp
  refine ⟨j, fj, mj, hfj, hmj, hsel, ?_, ?_, ?_⟩
  · rw [Longest_mkSimple, hsel]
    have hj1 : ¬((j : Int) = -1) := fun hc =>
      absurd (hc ▸ Int.natCast_nonneg j) (by decide)
    simp only [ne_eq, hj1, not_false_eq_true, if_true, Int.toNat_natCast,
      List.getElem?_map, hfj, Option.map_some', hmj]
  · intro f hf
    exact hmem ((f (view s)).1) (List.mem_map_of_mem _ hf)
  · intro i hi fi hfi
    have hh := hearlier i hi
    rw [hgetD i, hfi] at hh
    simpa using hh

def g3 : List Byte → Option Match × Nat :=
  fun v => (some (.mk 201 (v.take 3) [] []), 3)

def g7 : List Byte → Option Match × Nat :=
  fun v => (some (.mk 202 (v.take 7) [] []), 7)

def g4a : List Byte → Option Match × Nat :=
  fun v => (some (.mk 203 (v.take 4) [] []), 4)

def g4b : List Byte → Option Match × Nat :=
  fun v => (some (.mk 204 (v.take 4) [] []), 4)

/-- The bytes of `"abcdefgh"`. -/
def str8 : List Byte := [97, 98, 99, 100, 101, 102, 103, 104]

/-- Witness for C5: on `"abcdefgh"`, a 3-byte and a 7-byte alternative
yield the 7-byte match with its branch committed; two 4-byte
alternatives yield the first one; and the general theorem instantiates
at the first pair. -/
theorem longest_max_first_witness :
    Longest [mkSimple g3, mkSimple g7] (Input.New str8)
        = .ok (some (.mk 202 [97, 98, 99, 100, 101, 102, 103] [] []), ⟨⟨[104]⟩, 0, []⟩)
    ∧ Longest [mkSimple g4a, mkSimple g4b] (Input.New str8)
        = .ok (some (.mk 203 [97, 98, 99, 100] [] []), ⟨⟨[101, 102, 103, 104]⟩, 0, []⟩)
    ∧ LongestSpec [g3, g7] (Input.New str8) :=
  ⟨rfl, rfl, longest_max_first [g3, g7] (Input.New str8) ⟨g3, by simp, rfl⟩⟩

/-! ## Claim C8 -/

/-- Claim C8: when every alternative fails, `Longest` still returns
no-match, but `selectLongest` returns the LAST index (never `-1` for a
non-empty list), so the last alternative's fork is `Keep`-ed: whatever
that failing alternative consumed is committed into the caller, whose
cursor is therefore not restored on the no-match outcome. -/
theorem longest_allfail_commits_last (fs : List (List Byte → Option Match × Nat))
    (s : Input) (hne : fs ≠ []) (hall : ∀ f ∈ fs, (f (view s)).1 = none) :
    selectLongest (fs.map fun f => (f (view s)).1) = (fs.length : Int) - 1
    ∧ ∃ fl, fs[fs.length - 1]? = some fl
        ∧ Longest (fs.map mkSimple) s
          = .ok (none, (forkAdv s (fl (view s)).2).Keep) := by
  have hallm : ∀ m ∈ fs.map (fun f => (f (view s)).1), m = none := by
    intro m hm
    rcases List.mem_map.mp hm with ⟨f, hf, rfl⟩
    exact hall f hf
  have hlen1 : 1 ≤ fs.length := by
    rcases fs with _ | ⟨f, rest⟩
    · exact absurd rfl hne
    · simp
  have hlt : fs.length - 1 < fs.length := by omega
  have hj1 : ¬((fs.length : Int) - 1 = -1) := by omega
  have hj2 : ((fs.length : Int) - 1).toNat = fs.length - 1 := by omega
  have hgo := selectLongestGo_allNone (fs.map fun f => (f (view s)).1) 0 0 hallm
    (by simpa using hne)
  have hsel : selectLongest (fs.map fun f => (f (view s)).1)
      = (fs.length : Int) - 1 := by
    rw [selectLongest, hgo]
    simp only [List.length_map]
    omega
  obtain ⟨fl, hfl⟩ : ∃ fl, fs[fs.length - 1]? = some fl :=
    ⟨_, List.getElem?_eq_getElem hlt⟩
  have hflmem : fl ∈ fs := List.getElem?_mem hfl
  refine ⟨hsel, fl, hfl, ?_⟩
  rw [Longest_mkSimple, hsel]
  simp only [ne_eq, hj1, not_false_eq_true, if_true, hj2, List.getElem?_map, hfl,
    Option.map_some', hall fl hflmem]

/-- A failing abstract alternative that consumes two bytes while
failing. -/
def gFail : List Byte → Option Match × Nat := fun _ => (none, 2)

/-- Witness for C8: one all-failing alternative on `"abcd"`; `Longest`
returns no-match, yet the root's window has permanently lost the two
bytes the failing branch consumed (its fork was kept). -/
theorem longest_allfail_commits_last_witness :
    Longest [mkSimple gFail] (Input.New [97, 98, 99, 100])
        = .ok (none, ⟨⟨[99, 100]⟩, 0, []⟩)
    ∧ (selectLongest ([gFail].map fun f => (f (view (Input.New [97, 98, 99, 100]))).1)
          = (([gFail] : List (List Byte → Option Match × Nat)).length : Int) - 1
      ∧ ∃ fl, ([gFail] : List (List Byte → Option Match × Nat))[[gFail].length - 1]?
            = some fl
          ∧ Longest ([gFail].map mkSimple) (Input.New [97, 98, 99, 100])
            = .ok (none, (forkAdv (Input.New [97, 98, 99, 100])
                (fl (view (Input.New [97, 98, 99, 100]))).2).Keep)) :=
  ⟨rfl, longest_allfail_commits_last [gFail] (Input.New [97, 98, 99, 100]) (by simp)
    (by intro f hf; rw [List.mem_singleton] at hf; subst hf; rfl)⟩
